import Mathlib

/-!
Verification of the numeric post-processing and pipeline logic of
embedding_generator.py (semantiq repository).

Python floats are modelled as exact rationals; numpy arrays as lists of
rationals (matrices as lists of rows).  Casting a nonnegative float to an
unsigned integer type truncates toward zero and wraps modulo the type width,
which we model with Int.floor, Int.toNat and a modulus.  Third-party library
calls (SentenceTransformer.encode, umap.UMAP.fit_transform,
sklearn cosine_similarity) are abstracted as function parameters.
-/

namespace Semantiq

/-- Minimum of a list of rationals, as numpy arr.min(); 0 on the empty list
(where numpy would raise). -/
def listMin : List ℚ → ℚ
  | [] => 0
  | [x] => x
  | x :: y :: t => min x (listMin (y :: t))

/-- Maximum of a list of rationals, as numpy arr.max(); 0 on the empty list
(where numpy would raise). -/
def listMax : List ℚ → ℚ
  | [] => 0
  | [x] => x
  | x :: y :: t => max x (listMax (y :: t))

theorem listMin_le {l : List ℚ} {x : ℚ} (hx : x ∈ l) : listMin l ≤ x := by
  induction l with
  | nil => cases hx
  | cons a t ih =>
    cases t with
    | nil =>
      rcases List.mem_cons.mp hx with h | h
      · simp [listMin, h]
      · cases h
    | cons b t2 =>
      rcases List.mem_cons.mp hx with h | h
      · subst h; exact min_le_left _ _
      · exact le_trans (min_le_right _ _) (ih h)

theorem le_listMax {l : List ℚ} {x : ℚ} (hx : x ∈ l) : x ≤ listMax l := by
  induction l with
  | nil => cases hx
  | cons a t ih =>
    cases t with
    | nil =>
      rcases List.mem_cons.mp hx with h | h
      · simp [listMax, h]
      · cases h
    | cons b t2 =>
      rcases List.mem_cons.mp hx with h | h
      · subst h; exact le_max_left _ _
      · exact le_trans (ih h) (le_max_right _ _)

/-- Two distinct members force the minimum strictly below the maximum. -/
theorem listMin_lt_listMax {l : List ℚ} {x y : ℚ} (hx : x ∈ l) (hy : y ∈ l)
    (hxy : x ≠ y) : listMin l < listMax l := by
  rcases lt_or_gt_of_ne hxy with h | h
  · exact lt_of_le_of_lt (listMin_le hx) (lt_of_lt_of_le h (le_listMax hy))
  · exact lt_of_le_of_lt (listMin_le hy) (lt_of_lt_of_le h (le_listMax hx))

/-- Scale factor used by quantize_to_uint8 in export_data:
scale = 255.0 / (arr_max - arr_min). -/
def quantScale8 (arr : List ℚ) : ℚ := 255 / (listMax arr - listMin arr)

/-- Single quantized entry: ((x - arr_min) * scale).astype(np.uint8),
i.e. truncation toward zero followed by the uint8 wrap. -/
def quant8val (arr_min scale : ℚ) (x : ℚ) : ℕ :=
  (Int.floor ((x - arr_min) * scale)).toNat % 256

/-- Embedding of quantize_to_uint8 (export_data, embedding_generator.py):
returns (quantized, arr_min, arr_max, scale) with
scale = 255.0 / (arr_max - arr_min) and
quantized = ((arr - arr_min) * scale).astype(np.uint8). -/
def quantize_to_uint8 (arr : List ℚ) : List ℕ × ℚ × ℚ × ℚ :=
  let arr_min := listMin arr
  let arr_max := listMax arr
  let scale := quantScale8 arr
  (arr.map (quant8val arr_min scale), arr_min, arr_max, scale)

theorem quant8val_min (arr_min scale : ℚ) : quant8val arr_min scale arr_min = 0 := by
  simp [quant8val]

theorem quant8val_max {arr : List ℚ} (h : listMin arr < listMax arr) :
    quant8val (listMin arr) (quantScale8 arr) (listMax arr) = 255 := by
  have hne : listMax arr - listMin arr ≠ 0 := sub_ne_zero.mpr (ne_of_gt h)
  have : (listMax arr - listMin arr) * quantScale8 arr = 255 := by
    rw [quantScale8]
    field_simp
  simp [quant8val, this]

theorem quant8val_le (arr_min scale x : ℚ) : quant8val arr_min scale x ≤ 255 := by
  have : (Int.floor ((x - arr_min) * scale)).toNat % 256 < 256 :=
    Nat.mod_lt _ (by norm_num)
  exact Nat.lt_succ_iff.mp this

/-- C1: for an array whose maximum exceeds its minimum, quantize_to_uint8
returns the quantized array together with arr_min, arr_max and
scale = 255 / (arr_max - arr_min); the quantized array maps an entry equal
to arr_min to 0 and an entry equal to arr_max to 255, and every quantized
value lies in the range 0..255. -/
theorem quantize_to_uint8_spec (arr : List ℚ) (h : listMin arr < listMax arr) :
    (quantize_to_uint8 arr).2.1 = listMin arr ∧
    (quantize_to_uint8 arr).2.2.1 = listMax arr ∧
    (quantize_to_uint8 arr).2.2.2 = 255 / (listMax arr - listMin arr) ∧
    (quantize_to_uint8 arr).1.length = arr.length ∧
    (∀ (i : ℕ) (x : ℚ), arr[i]? = some x → x = listMin arr →
      (quantize_to_uint8 arr).1[i]? = some 0) ∧
    (∀ (i : ℕ) (x : ℚ), arr[i]? = some x → x = listMax arr →
      (quantize_to_uint8 arr).1[i]? = some 255) ∧
    (∀ v ∈ (quantize_to_uint8 arr).1, v ≤ 255) := by
  refine ⟨rfl, rfl, rfl, by simp [quantize_to_uint8], ?_, ?_, ?_⟩
  · intro i x hi hx
    simp only [quantize_to_uint8, List.getElem?_map, hi, Option.map_some']
    rw [hx, quant8val_min]
  · intro i x hi hx
    simp only [quantize_to_uint8, List.getElem?_map, hi, Option.map_some']
    rw [hx, quant8val_max h]
  · intro v hv
    simp only [quantize_to_uint8, List.mem_map] at hv
    obtain ⟨x, hx, rfl⟩ := hv
    exact quant8val_le _ _ x

/-- Witness for C1 at the concrete array [0, 2, 1]. -/
theorem quantize_to_uint8_spec_witness :
    listMin [(0 : ℚ), 2, 1] < listMax [(0 : ℚ), 2, 1] ∧
    (∀ (i : ℕ) (x : ℚ), [(0 : ℚ), 2, 1][i]? = some x → x = listMin [(0 : ℚ), 2, 1] →
      (quantize_to_uint8 [(0 : ℚ), 2, 1]).1[i]? = some 0) := by
  refine ⟨by decide, ?_⟩
  exact (quantize_to_uint8_spec [(0 : ℚ), 2, 1] (by decide)).2.2.2.2.1

/-- Step function building the list of first occurrences, as insertion into a
Python dict or set preserves first-encounter order. -/
def keyStep {α : Type} [DecidableEq α] (acc : List α) (x : α) : List α :=
  if x ∈ acc then acc else acc ++ [x]

/-- Distinct elements of a list in first-occurrence order: the keys of a
collections.Counter (or of set insertion order) built from the list. -/
def keysInOrder {α : Type} [DecidableEq α] (l : List α) : List α :=
  l.foldl keyStep []

theorem keysFold_mem {α : Type} [DecidableEq α] (l : List α) :
    ∀ (acc : List α) (y : α), y ∈ l.foldl keyStep acc ↔ y ∈ acc ∨ y ∈ l := by
  induction l with
  | nil => intro acc y; simp
  | cons x t ih =>
    intro acc y
    rw [List.foldl_cons, ih]
    by_cases hx : x ∈ acc
    · simp only [keyStep, if_pos hx, List.mem_cons]
      constructor
      · rintro (h | h)
        · exact Or.inl h
        · exact Or.inr (Or.inr h)
      · rintro (h | rfl | h)
        · exact Or.inl h
        · exact Or.inl hx
        · exact Or.inr h
    · simp only [keyStep, if_neg hx, List.mem_append, List.mem_singleton,
        List.mem_cons]
      tauto

theorem keysFold_nodup {α : Type} [DecidableEq α] (l : List α) :
    ∀ acc : List α, acc.Nodup → (l.foldl keyStep acc).Nodup := by
  induction l with
  | nil => intro acc h; simpa using h
  | cons x t ih =>
    intro acc hacc
    rw [List.foldl_cons]
    apply ih
    by_cases hx : x ∈ acc
    · simpa [keyStep, if_pos hx] using hacc
    · simp [keyStep, if_neg hx, List.nodup_append, hacc, hx]

theorem nodup_keysInOrder {α : Type} [DecidableEq α] (l : List α) :
    (keysInOrder l).Nodup :=
  keysFold_nodup l [] List.nodup_nil

theorem mem_keysInOrder {α : Type} [DecidableEq α] {l : List α} {y : α} :
    y ∈ keysInOrder l ↔ y ∈ l := by
  rw [keysInOrder, keysFold_mem]
  simp

theorem keysFold_length_le {α : Type} [DecidableEq α] (l : List α) :
    ∀ acc : List α, (l.foldl keyStep acc).length ≤ acc.length + l.length := by
  induction l with
  | nil => intro acc; simp
  | cons x t ih =>
    intro acc
    rw [List.foldl_cons]
    refine le_trans (ih _) ?_
    by_cases hx : x ∈ acc
    · simp only [keyStep, if_pos hx, List.length_cons]
      omega
    · simp only [keyStep, if_neg hx, List.length_append, List.length_cons,
        List.length_singleton, List.length_nil]
      omega

theorem keysInOrder_length_le {α : Type} [DecidableEq α] (l : List α) :
    (keysInOrder l).length ≤ l.length := by
  simpa using keysFold_length_le l []

theorem keysFold_length_of_nodup {α : Type} [DecidableEq α] (l : List α) :
    ∀ acc : List α, (acc ++ l).Nodup →
      (l.foldl keyStep acc).length = acc.length + l.length := by
  induction l with
  | nil => intro acc h; simp
  | cons x t ih =>
    intro acc hacc
    have hx : x ∉ acc := by
      intro hmem
      rcases List.nodup_append.mp hacc with ⟨h1, h2, hdisj⟩
      exact hdisj hmem (List.mem_cons_self x t)
    rw [List.foldl_cons, keyStep, if_neg hx]
    have hacc2 : ((acc ++ [x]) ++ t).Nodup := by
      rw [List.append_assoc]
      simpa using hacc
    rw [ih _ hacc2]
    simp only [List.length_append, List.length_cons, List.length_singleton,
      List.length_nil]
    omega

theorem keysInOrder_length_of_nodup {α : Type} [DecidableEq α] {l : List α}
    (h : l.Nodup) : (keysInOrder l).length = l.length := by
  simpa using keysFold_length_of_nodup l [] (by simpa using h)

theorem keysInOrder_length_eq_dedup {α : Type} [DecidableEq α] (l : List α) :
    (keysInOrder l).length = l.dedup.length := by
  calc (keysInOrder l).length
      = (keysInOrder l).toFinset.card :=
        (List.toFinset_card_of_nodup (nodup_keysInOrder l)).symm
    _ = l.toFinset.card := by
        congr 1
        ext a
        simp [List.mem_toFinset, mem_keysInOrder]
    _ = l.dedup.length := List.card_toFinset l

/-- Widths for which numpy has an unsigned integer dtype named uint followed
by the width; getattr(np, ...) raises AttributeError for any other width,
modelled as none. -/
def npUintWidth (w : ℕ) : Option ℕ :=
  if w = 8 ∨ w = 16 ∨ w = 32 ∨ w = 64 then some w else none

/-- Scale factor of quantize_to_uint inside analyze_collisions:
(2 ** n_bits - 1) / (arr_max - arr_min), with the minimum and maximum taken
over the whole matrix as numpy does. -/
def quantScaleBits (arr : List (List ℚ)) (n_bits : ℕ) : ℚ :=
  ((2 : ℚ) ^ n_bits - 1) / (listMax arr.flatten - listMin arr.flatten)

/-- Scale factor of the similarity quantization in
analyze_similarity_collisions: (2 ** bits - 1) / (sim_max - sim_min). -/
def simQuantScale (similarities : List ℚ) (bits : ℕ) : ℚ :=
  ((2 : ℚ) ^ bits - 1) / (listMax similarities - listMin similarities)

/-- Embedding of quantize_to_uint (analyze_collisions): quantizes the whole
matrix with the global minimum, maximum and scale, then casts to the numpy
dtype uint n_bits when n_bits <= 8 and uint16 otherwise.  The result pairs
the dtype width with the quantized rows (entries wrapped modulo 2 ^ width);
none models the AttributeError raised when the dtype does not exist. -/
def quantize_to_uint (arr : List (List ℚ)) (n_bits : ℕ) :
    Option (ℕ × List (List ℕ)) :=
  match npUintWidth (if n_bits ≤ 8 then n_bits else 16) with
  | none => none
  | some w =>
    let arr_min := listMin arr.flatten
    let scale := quantScaleBits arr n_bits
    some (w, arr.map (fun row =>
      row.map (fun x => (Int.floor ((x - arr_min) * scale)).toNat % 2 ^ w)))

theorem quantVal_le (arr : List (List ℚ)) (n_bits : ℕ) {x : ℚ}
    (hx : x ∈ arr.flatten) :
    (Int.floor ((x - listMin arr.flatten) * quantScaleBits arr n_bits)).toNat ≤
      2 ^ n_bits - 1 := by
  have h1le : 1 ≤ 2 ^ n_bits := Nat.one_le_two_pow
  have h2n : ((2 ^ n_bits - 1 : ℕ) : ℚ) = (2 : ℚ) ^ n_bits - 1 := by
    rw [Nat.cast_sub h1le, Nat.cast_pow, Nat.cast_ofNat, Nat.cast_one]
  have hmn : listMin arr.flatten ≤ x := listMin_le hx
  have hmx : x ≤ listMax arr.flatten := le_listMax hx
  have hnn : (0 : ℚ) ≤ (2 : ℚ) ^ n_bits - 1 := by
    rw [← h2n]
    exact Nat.cast_nonneg _
  have h1 : (x - listMin arr.flatten) * quantScaleBits arr n_bits ≤
      (2 : ℚ) ^ n_bits - 1 := by
    by_cases hlt : listMin arr.flatten < listMax arr.flatten
    · have hne : listMax arr.flatten - listMin arr.flatten ≠ 0 :=
        sub_ne_zero.mpr (ne_of_gt hlt)
      have hsc : 0 ≤ quantScaleBits arr n_bits :=
        div_nonneg hnn (le_of_lt (sub_pos.mpr hlt))
      have hstep : (x - listMin arr.flatten) * quantScaleBits arr n_bits ≤
          (listMax arr.flatten - listMin arr.flatten) * quantScaleBits arr n_bits :=
        mul_le_mul_of_nonneg_right (sub_le_sub_right hmx _) hsc
      refine le_trans hstep (le_of_eq ?_)
      rw [quantScaleBits]
      field_simp
    · have heq : listMin arr.flatten = listMax arr.flatten :=
        le_antisymm (le_trans hmn hmx) (not_lt.mp hlt)
      have hxeq : x = listMin arr.flatten := le_antisymm (heq ▸ hmx) hmn
      rw [hxeq, sub_self, zero_mul]
      exact hnn
  have h2 : Int.floor ((x - listMin arr.flatten) * quantScaleBits arr n_bits) ≤
      ((2 ^ n_bits - 1 : ℕ) : ℤ) := by
    have := Int.floor_le_floor h1
    rwa [← h2n, Int.floor_natCast] at this
  exact Int.toNat_le.mpr h2

/-- C4 counterexample: with bits = 4 (which is at most 8) the code looks up
the numpy attribute uint4, which does not exist, so the call raises
AttributeError instead of storing the values in an unsigned 8-bit array. -/
theorem quantize_to_uint_bits4_counterexample :
    quantize_to_uint [[(0 : ℚ), 1]] 4 = none := by
  rfl

/-- C4 (amended): for bits of at least 8 quantize_to_uint succeeds; it
stores the quantized values in an unsigned 8-bit array exactly when
bits = 8 and in an unsigned 16-bit array when bits > 8, and every quantized
value is at most 2 ^ bits - 1.  For bits below 8 the numpy dtype lookup
fails, see the counterexample. -/
theorem quantize_to_uint_spec (arr : List (List ℚ)) (n_bits : ℕ)
    (hb : 8 ≤ n_bits) :
    ∃ rows, quantize_to_uint arr n_bits =
        some ((if n_bits = 8 then 8 else 16), rows) ∧
      rows.length = arr.length ∧
      ∀ row ∈ rows, ∀ v ∈ row, v ≤ 2 ^ n_bits - 1 := by
  have key : ∀ w : ℕ, ∀ row ∈ arr.map (fun row =>
      row.map (fun x => (Int.floor ((x - listMin arr.flatten) *
        quantScaleBits arr n_bits)).toNat % 2 ^ w)),
      ∀ v ∈ row, v ≤ 2 ^ n_bits - 1 := by
    intro w row hrow v hv
    simp only [List.mem_map] at hrow
    obtain ⟨r0, hr0, rfl⟩ := hrow
    simp only [List.mem_map] at hv
    obtain ⟨x, hxr, rfl⟩ := hv
    have hxj : x ∈ arr.flatten := List.mem_flatten.mpr ⟨r0, hr0, hxr⟩
    exact le_trans (Nat.mod_le _ _) (quantVal_le arr n_bits hxj)
  rcases eq_or_lt_of_le hb with heq | hlt
  · refine ⟨_, ?_, by simp, key 8⟩
    rw [← heq]
    rfl
  · have hgt : ¬ n_bits ≤ 8 := not_le.mpr hlt
    have hne : n_bits ≠ 8 := by omega
    refine ⟨_, ?_, by simp, key 16⟩
    simp only [quantize_to_uint, npUintWidth, if_neg hgt, if_neg hne]
    rfl

/-- Witness for C4 at the matrix [[0, 1]] with 9 bits. -/
theorem quantize_to_uint_spec_witness :
    8 ≤ 9 ∧ ∃ rows, quantize_to_uint [[(0 : ℚ), 1]] 9 =
        some ((if 9 = 8 then 8 else 16), rows) ∧
      rows.length = [[(0 : ℚ), 1]].length ∧
      ∀ row ∈ rows, ∀ v ∈ row, v ≤ 2 ^ 9 - 1 :=
  ⟨by decide, quantize_to_uint_spec [[(0 : ℚ), 1]] 9 (by decide)⟩

/-- C9: the three min-max quantization helpers (quantize_to_uint8 in
export_data, quantize_to_uint in analyze_collisions, and the similarity
quantization in analyze_similarity_collisions) divide by (max - min); when
the input holds at least two distinct values the divisor is nonzero, so the
division-by-zero branch is unreachable and each scale times the divisor
gives back the numerator. -/
theorem quantization_divisor_nonzero (arr : List ℚ) (bits : ℕ) (x y : ℚ)
    (hx : x ∈ arr) (hy : y ∈ arr) (hxy : x ≠ y) :
    listMin arr < listMax arr ∧
    listMax arr - listMin arr ≠ 0 ∧
    quantScale8 arr * (listMax arr - listMin arr) = 255 ∧
    quantScaleBits [arr] bits * (listMax arr - listMin arr) =
      (2 : ℚ) ^ bits - 1 ∧
    simQuantScale arr bits * (listMax arr - listMin arr) =
      (2 : ℚ) ^ bits - 1 := by
  have hlt : listMin arr < listMax arr := listMin_lt_listMax hx hy hxy
  have hne : listMax arr - listMin arr ≠ 0 := sub_ne_zero.mpr (ne_of_gt hlt)
  have hflat : ([arr] : List (List ℚ)).flatten = arr := by simp
  refine ⟨hlt, hne, ?_, ?_, ?_⟩
  · rw [quantScale8]
    field_simp
  · rw [quantScaleBits, hflat]
    field_simp
  · rw [simQuantScale]
    field_simp

/-- Witness for C9 at the concrete array [0, 1] with 8 bits. -/
theorem quantization_divisor_nonzero_witness :
    (0 : ℚ) ∈ [(0 : ℚ), 1] ∧ (1 : ℚ) ∈ [(0 : ℚ), 1] ∧ (0 : ℚ) ≠ 1 ∧
    listMax [(0 : ℚ), 1] - listMin [(0 : ℚ), 1] ≠ 0 :=
  ⟨by decide, by decide, by decide,
    (quantization_divisor_nonzero [(0 : ℚ), 1] 8 0 1 (by decide) (by decide)
      (by decide)).2.1⟩

/-- Quantized rows produced by quantize_to_uint at the default 8 bits (the
only width analyze_collisions is called with in the script). -/
def quantRows8 (embeddings : List (List ℚ)) : List (List ℕ) :=
  embeddings.map (fun row => row.map (fun x =>
    (Int.floor ((x - listMin embeddings.flatten) *
      quantScaleBits embeddings 8)).toNat % 2 ^ 8))

theorem quantize_to_uint_eight (embeddings : List (List ℚ)) :
    quantize_to_uint embeddings 8 = some (8, quantRows8 embeddings) := rfl

/-- Embedding of analyze_collisions: quantizes the embeddings, counts the
distinct quantized rows, and returns the collision rate together with the
first five collision groups in first-occurrence order; with no collision it
returns the literal pair (0, []).  The none case models the dtype
AttributeError of quantize_to_uint. -/
def analyze_collisions (embeddings : List (List ℚ)) (words : List String)
    (bits : ℕ) : Option (ℚ × List (List String)) :=
  match quantize_to_uint embeddings bits with
  | none => none
  | some (_, quantized) =>
    let embedding_tuples := quantized
    let unique_embeddings := (keysInOrder embedding_tuples).length
    let total_embeddings := embeddings.length
    let collision_rate := ((total_embeddings : ℚ) - (unique_embeddings : ℚ)) /
      (total_embeddings : ℚ)
    let collisions := (keysInOrder embedding_tuples).filter
      (fun k => decide (1 < embedding_tuples.count k))
    if collisions = [] then some (0, [])
    else some (collision_rate,
      (collisions.take 5).map (fun k =>
        ((embedding_tuples.zip words).filter
          (fun p => decide (p.1 = k))).map Prod.snd))

theorem nodup_iff_count_le_one_beq {α : Type} [BEq α] [LawfulBEq α]
    {l : List α} : l.Nodup ↔ ∀ a, l.count a ≤ 1 := by
  induction l with
  | nil => simp
  | cons x t ih =>
    rw [List.nodup_cons]
    constructor
    · rintro ⟨hx, ht⟩ a
      rw [List.count_cons]
      by_cases hax : a = x
      · subst hax
        rw [List.count_eq_zero_of_not_mem hx]
        simp
      · rw [if_neg (by simp only [beq_iff_eq]; exact fun h => hax h.symm)]
        have := ih.mp ht a
        omega
    · intro h
      have hxmem : x ∉ t := by
        intro hmem
        have h1 : 0 < t.count x := List.count_pos_iff.mpr hmem
        have h2 := h x
        rw [List.count_cons, if_pos (by simp)] at h2
        omega
      refine ⟨hxmem, ih.mpr fun a => ?_⟩
      have h2 := h a
      rw [List.count_cons] at h2
      split at h2 <;> omega

theorem collisions_eq_nil_iff (Q : List (List ℕ)) :
    (keysInOrder Q).filter (fun k => decide (1 < Q.count k)) = [] ↔ Q.Nodup := by
  rw [List.filter_eq_nil_iff, nodup_iff_count_le_one_beq]
  constructor
  · intro h k
    by_cases hk : k ∈ Q
    · have := h k (mem_keysInOrder.mpr hk)
      simp only [decide_eq_true_eq] at this
      omega
    · rw [List.count_eq_zero.mpr hk]
      omega
  · intro h k hk
    have := h k
    simp only [decide_eq_true_eq]
    omega

theorem one_le_keysInOrder_length {α : Type} [DecidableEq α] {l : List α}
    (h : l ≠ []) : 1 ≤ (keysInOrder l).length := by
  cases l with
  | nil => exact absurd rfl h
  | cons a t =>
    have : a ∈ keysInOrder (a :: t) :=
      mem_keysInOrder.mpr (List.mem_cons_self a t)
    exact List.length_pos.mpr (List.ne_nil_of_mem this)

theorem analyze_collisions_eq_of_no_collision (embeddings : List (List ℚ))
    (words : List String)
    (hcol : (keysInOrder (quantRows8 embeddings)).filter
      (fun k => decide (1 < (quantRows8 embeddings).count k)) = []) :
    analyze_collisions embeddings words 8 = some (0, []) := by
  simp only [analyze_collisions, quantize_to_uint_eight]
  rw [hcol]
  simp

theorem analyze_collisions_eq_of_collision (embeddings : List (List ℚ))
    (words : List String)
    (hcol : (keysInOrder (quantRows8 embeddings)).filter
      (fun k => decide (1 < (quantRows8 embeddings).count k)) ≠ []) :
    analyze_collisions embeddings words 8 = some
      (((embeddings.length : ℚ) -
          ((keysInOrder (quantRows8 embeddings)).length : ℚ)) /
        (embeddings.length : ℚ),
      (((keysInOrder (quantRows8 embeddings)).filter
          (fun k => decide (1 < (quantRows8 embeddings).count k))).take 5).map
        (fun k => (((quantRows8 embeddings).zip words).filter
          (fun p => decide (p.1 = k))).map Prod.snd)) := by
  simp only [analyze_collisions, quantize_to_uint_eight]
  rw [if_neg hcol]

/-- C3: on a non-empty embeddings matrix and a word list of equal length,
analyze_collisions (at the default 8 bits) returns a collision rate equal to
(total - unique) / total, with total the number of rows and unique the
number of distinct rows after quantization; when all quantized rows are
distinct it returns the pair (0, []), and the rate always lies in [0, 1). -/
theorem analyze_collisions_rate (embeddings : List (List ℚ))
    (words : List String) (h1 : embeddings ≠ [])
    (hlen : words.length = embeddings.length) :
    ∃ rate groups,
      analyze_collisions embeddings words 8 = some (rate, groups) ∧
      rate = ((embeddings.length : ℚ) -
          ((quantRows8 embeddings).dedup.length : ℚ)) /
        (embeddings.length : ℚ) ∧
      ((quantRows8 embeddings).Nodup →
        analyze_collisions embeddings words 8 = some (0, [])) ∧
      0 ≤ rate ∧ rate < 1 := by
  classical
  have hQlen : (quantRows8 embeddings).length = embeddings.length := by
    simp [quantRows8]
  have hQne : quantRows8 embeddings ≠ [] := by
    intro hnil
    apply h1
    rw [hnil] at hQlen
    exact List.length_eq_zero.mp hQlen.symm
  have hunique : (keysInOrder (quantRows8 embeddings)).length =
      (quantRows8 embeddings).dedup.length :=
    keysInOrder_length_eq_dedup (quantRows8 embeddings)
  have hle : (quantRows8 embeddings).dedup.length ≤ embeddings.length := by
    rw [← hunique, ← hQlen]
    exact keysInOrder_length_le (quantRows8 embeddings)
  have hge : 1 ≤ (quantRows8 embeddings).dedup.length := by
    rw [← hunique]
    exact one_le_keysInOrder_length hQne
  have htpos : (0 : ℚ) < (embeddings.length : ℚ) := by
    have : 0 < embeddings.length := List.length_pos.mpr h1
    exact_mod_cast this
  have hrate0 : (0 : ℚ) ≤ ((embeddings.length : ℚ) -
      ((quantRows8 embeddings).dedup.length : ℚ)) / (embeddings.length : ℚ) := by
    apply div_nonneg _ (le_of_lt htpos)
    rw [sub_nonneg]
    exact_mod_cast hle
  have hrate1 : ((embeddings.length : ℚ) -
      ((quantRows8 embeddings).dedup.length : ℚ)) /
      (embeddings.length : ℚ) < 1 := by
    rw [div_lt_one htpos, sub_lt_self_iff]
    exact_mod_cast hge
  by_cases hcol : (keysInOrder (quantRows8 embeddings)).filter
      (fun k => decide (1 < (quantRows8 embeddings).count k)) = []
  · have hnodup : (quantRows8 embeddings).Nodup :=
      (collisions_eq_nil_iff (quantRows8 embeddings)).mp hcol
    have huniq : (quantRows8 embeddings).dedup.length = embeddings.length := by
      rw [← hunique, keysInOrder_length_of_nodup hnodup, hQlen]
    refine ⟨0, [], analyze_collisions_eq_of_no_collision embeddings words hcol,
      ?_, fun _ => analyze_collisions_eq_of_no_collision embeddings words hcol,
      le_refl 0, by norm_num⟩
    rw [huniq, sub_self, zero_div]
  · refine ⟨_, _, analyze_collisions_eq_of_collision embeddings words hcol,
      ?_, fun hnodup => ?_, ?_, ?_⟩
    · rw [hunique]
    · exact absurd ((collisions_eq_nil_iff (quantRows8 embeddings)).mpr hnodup)
        hcol
    · rw [hunique]
      exact hrate0
    · rw [hunique]
      exact hrate1

/-- Witness for C3 at two words with the rows [[0]] and [[1]]. -/
theorem analyze_collisions_rate_witness :
    ([[(0 : ℚ)], [1]] : List (List ℚ)) ≠ [] ∧
    (["a", "b"] : List String).length =
      ([[(0 : ℚ)], [1]] : List (List ℚ)).length ∧
    ∃ rate groups,
      analyze_collisions [[(0 : ℚ)], [1]] ["a", "b"] 8 = some (rate, groups) ∧
      rate = ((([[(0 : ℚ)], [1]] : List (List ℚ)).length : ℚ) -
          ((quantRows8 [[(0 : ℚ)], [1]]).dedup.length : ℚ)) /
        (([[(0 : ℚ)], [1]] : List (List ℚ)).length : ℚ) ∧
      ((quantRows8 [[(0 : ℚ)], [1]]).Nodup →
        analyze_collisions [[(0 : ℚ)], [1]] ["a", "b"] 8 = some (0, [])) ∧
      0 ≤ rate ∧ rate < 1 :=
  ⟨by decide, by decide,
    analyze_collisions_rate [[(0 : ℚ)], [1]] ["a", "b"] (by decide) (by decide)⟩

/-- C10: whenever collisions exist, analyze_collisions returns at most five
collision groups, and every returned group is exactly the list of words
whose quantized row equals the shared row of a genuinely duplicated
quantized embedding. -/
theorem analyze_collisions_groups (embeddings : List (List ℚ))
    (words : List String) (hdup : ¬ (quantRows8 embeddings).Nodup) :
    ∃ rate groups,
      analyze_collisions embeddings words 8 = some (rate, groups) ∧
      groups.length ≤ 5 ∧
      ∀ g ∈ groups, ∃ k, 1 < (quantRows8 embeddings).count k ∧
        g = (((quantRows8 embeddings).zip words).filter
          (fun p => decide (p.1 = k))).map Prod.snd := by
  classical
  have hcol : (keysInOrder (quantRows8 embeddings)).filter
      (fun k => decide (1 < (quantRows8 embeddings).count k)) ≠ [] := by
    intro hnil
    exact hdup ((collisions_eq_nil_iff (quantRows8 embeddings)).mp hnil)
  refine ⟨_, _, analyze_collisions_eq_of_collision embeddings words hcol,
    ?_, ?_⟩
  · rw [List.length_map, List.length_take]
    exact min_le_left _ _
  · intro g hg
    rw [List.mem_map] at hg
    obtain ⟨k, hk, rfl⟩ := hg
    have hk2 : k ∈ (keysInOrder (quantRows8 embeddings)).filter
        (fun k => decide (1 < (quantRows8 embeddings).count k)) :=
      List.mem_of_mem_take hk
    have := List.of_mem_filter hk2
    simp only [decide_eq_true_eq] at this
    exact ⟨k, this, rfl⟩

/-- The first two rows of this concrete input quantize identically, so its
quantized rows are certainly not distinct. -/
theorem quantRows8_dup_example : ¬ (quantRows8 [[(0 : ℚ)], [0], [1]]).Nodup := by
  simp [quantRows8, List.nodup_cons]

/-- Witness for C10 at three words where the first two rows collide. -/
theorem analyze_collisions_groups_witness :
    (¬ (quantRows8 [[(0 : ℚ)], [0], [1]]).Nodup) ∧
    ∃ rate groups,
      analyze_collisions [[(0 : ℚ)], [0], [1]] ["a", "b", "c"] 8 =
        some (rate, groups) ∧
      groups.length ≤ 5 ∧
      ∀ g ∈ groups, ∃ k, 1 < (quantRows8 [[(0 : ℚ)], [0], [1]]).count k ∧
        g = (((quantRows8 [[(0 : ℚ)], [0], [1]]).zip ["a", "b", "c"]).filter
          (fun p => decide (p.1 = k))).map Prod.snd :=
  ⟨quantRows8_dup_example,
    analyze_collisions_groups [[(0 : ℚ)], [0], [1]] ["a", "b", "c"]
      quantRows8_dup_example⟩

/-- Python str.isalpha: the string is nonempty and every character is
alphabetic. -/
def pyIsAlpha (s : String) : Bool :=
  !s.data.isEmpty && s.data.all Char.isAlpha

/-- Python str.lower, character by character. -/
def pyLower (s : String) : String := String.map Char.toLower s

/-- The fixed stop-word set of get_frequency_sorted_words, copied from the
script (the source lists the word her twice; set semantics ignore that). -/
def stop_words : List String :=
  ["the", "be", "to", "of", "and", "a", "in", "that", "have", "i", "it", "for",
   "not", "on", "with", "he", "as", "you", "do", "at", "this", "but", "his",
   "by", "from", "they", "we", "say", "her", "she", "or", "an", "will", "my",
   "one", "all", "would", "there", "their", "been", "has", "had", "who", "its",
   "now", "may", "does", "many", "than", "then", "them", "these", "very",
   "just", "into", "over", "also", "your", "only", "still", "never", "each",
   "how", "our", "out", "most", "some", "her"]

/-- Lower-cased alphabetic words of the Brown corpus:
brown_words = word.lower() for word in brown.words() if word.isalpha(). -/
def brown_processed (brown : List String) : List String :=
  (brown.filter pyIsAlpha).map pyLower

/-- Lower-cased alphabetic words of the NLTK dictionary:
valid_words = set of w.lower() for w in nltk_words.words() if w.isalpha()
(membership in the set equals membership in this list). -/
def valid_words (nltkWords : List String) : List String :=
  (nltkWords.filter pyIsAlpha).map pyLower

/-- Comparator of Counter.most_common: sort by count, largest first. -/
def byCountDesc (a b : String × ℕ) : Bool := decide (b.2 ≤ a.2)

/-- Counter(l).most_common(): the distinct elements with their counts,
sorted by count in non-increasing order (Python sorting is stable, ties keep
first-encounter order; mergeSort is stable too). -/
def most_common (l : List String) : List (String × ℕ) :=
  ((keysInOrder l).map (fun w => (w, l.count w))).mergeSort byCountDesc

/-- Embedding of get_frequency_sorted_words: filters the frequency-sorted
Brown vocabulary for valid non-stop words of length 3..12 appearing at
least 3 times, and keeps the first n_words of them.  The Brown corpus and
the NLTK word list are parameters; printing is ignored. -/
def get_frequency_sorted_words (brown nltkWords : List String)
    (n_words : ℕ) : List String :=
  let brown_words := brown_processed brown
  let vw := valid_words nltkWords
  let frequent_valid_words := (most_common brown_words).filter (fun p =>
    decide (p.1 ∈ vw) && !decide (p.1 ∈ stop_words) &&
    decide (3 ≤ p.1.length) && decide (p.1.length ≤ 12) &&
    pyIsAlpha p.1 && decide (3 ≤ p.2))
  (frequent_valid_words.take n_words).map Prod.fst

theorem most_common_snd {l : List String} {p : String × ℕ}
    (hp : p ∈ most_common l) : p.2 = l.count p.1 := by
  rw [most_common, List.mem_mergeSort] at hp
  obtain ⟨w, hw, rfl⟩ := List.mem_map.mp hp
  rfl

theorem byCountDesc_trans : ∀ a b c : String × ℕ,
    byCountDesc a b → byCountDesc b c → byCountDesc a c := by
  intro a b c hab hbc
  simp only [byCountDesc, decide_eq_true_eq] at hab hbc ⊢
  omega

theorem byCountDesc_total : ∀ a b : String × ℕ,
    byCountDesc a b || byCountDesc b a := by
  intro a b
  simp only [byCountDesc, Bool.or_eq_true, decide_eq_true_eq]
  omega

theorem most_common_sorted (l : List String) :
    (most_common l).Pairwise (fun a b => b.2 ≤ a.2) := by
  have h := List.sorted_mergeSort byCountDesc_trans byCountDesc_total
    ((keysInOrder l).map (fun w => (w, l.count w)))
  refine h.imp ?_
  intro a b hab
  simpa [byCountDesc] using hab

/-- C2: the word list returned by get_frequency_sorted_words has at most
n_words entries; every entry is purely alphabetic, has length between 3 and
12, is not a stop word, occurs at least 3 times among the lower-cased
alphabetic Brown-corpus words, and belongs to the NLTK dictionary; and the
list is ordered by non-increasing Brown-corpus frequency. -/
theorem get_frequency_sorted_words_spec (brown nltkWords : List String)
    (n_words : ℕ) :
    (get_frequency_sorted_words brown nltkWords n_words).length ≤ n_words ∧
    (∀ w ∈ get_frequency_sorted_words brown nltkWords n_words,
      pyIsAlpha w = true ∧ 3 ≤ w.length ∧ w.length ≤ 12 ∧
      w ∉ stop_words ∧ 3 ≤ (brown_processed brown).count w ∧
      w ∈ valid_words nltkWords) ∧
    (get_frequency_sorted_words brown nltkWords n_words).Pairwise
      (fun w1 w2 => (brown_processed brown).count w2 ≤
        (brown_processed brown).count w1) := by
  classical
  refine ⟨?_, ?_, ?_⟩
  · rw [get_frequency_sorted_words]
    simp only [List.length_map, List.length_take]
    exact min_le_left _ _
  · intro w hw
    rw [get_frequency_sorted_words, List.mem_map] at hw
    obtain ⟨p, hp, rfl⟩ := hw
    have hpf := List.mem_of_mem_take hp
    have hpm : p ∈ most_common (brown_processed brown) :=
      List.mem_of_mem_filter hpf
    have hpred := List.of_mem_filter hpf
    simp only [Bool.and_eq_true, decide_eq_true_eq, Bool.not_eq_true',
      decide_eq_false_iff_not] at hpred
    obtain ⟨⟨⟨⟨⟨hvw, hstop⟩, hlen3⟩, hlen12⟩, halpha⟩, hfreq⟩ := hpred
    refine ⟨halpha, hlen3, hlen12, hstop, ?_, hvw⟩
    rw [← most_common_snd hpm]
    exact hfreq
  · rw [get_frequency_sorted_words]
    rw [List.pairwise_map]
    have h0 := most_common_sorted (brown_processed brown)
    have h1 : ((most_common (brown_processed brown)).filter (fun p =>
        decide (p.1 ∈ valid_words nltkWords) &&
        !decide (p.1 ∈ stop_words) &&
        decide (3 ≤ p.1.length) && decide (p.1.length ≤ 12) &&
        pyIsAlpha p.1 && decide (3 ≤ p.2))).Pairwise
        (fun a b => b.2 ≤ a.2) :=
      h0.sublist (List.filter_sublist _)
    have h2 := h1.sublist (List.take_sublist n_words _)
    refine h2.imp_of_mem ?_
    intro a b ha hb hab
    have ham : a ∈ most_common (brown_processed brown) :=
      List.mem_of_mem_filter (List.mem_of_mem_take ha)
    have hbm : b ∈ most_common (brown_processed brown) :=
      List.mem_of_mem_filter (List.mem_of_mem_take hb)
    rw [← most_common_snd ham, ← most_common_snd hbm]
    exact hab

/-- Mutable state of an EmbeddingGenerator: __init__ sets embeddings, words
and umap_coords to None (the loaded model is abstracted away). -/
structure GenState where
  words : Option (List String)
  embeddings : Option (List (List ℚ))
  umap_coords : Option (List (List ℚ))

/-- The state right after EmbeddingGenerator.__init__. -/
def init_state : GenState :=
  { words := none, embeddings := none, umap_coords := none }

/-- Embedding of generate_embeddings: stores the word list and the vectors
produced by the sentence-transformer model (abstracted as the encode
parameter) and returns the embeddings. -/
def generate_embeddings (encode : List String → List (List ℚ))
    (s : GenState) (words : List String) : GenState × List (List ℚ) :=
  let e := encode words
  ({ s with words := some words, embeddings := some e }, e)

/-- Embedding of generate_umap_coordinates: raises ValueError when the
stored embeddings are still None, leaving the state untouched; otherwise
stores and returns the coordinates computed by
umap.UMAP(n_components, ...).fit_transform, abstracted as the umapFit
parameter applied to n_components. -/
def generate_umap_coordinates (umapFit : ℕ → List (List ℚ) → List (List ℚ))
    (n_components : ℕ) (s : GenState) :
    Except String (List (List ℚ)) × GenState :=
  match s.embeddings with
  | none => (Except.error "Must generate embeddings first", s)
  | some e =>
    let coords := umapFit n_components e
    (Except.ok coords, { s with umap_coords := some coords })

/-- C6: calling generate_umap_coordinates while the stored embeddings are
None raises ValueError (Must generate embeddings first) and leaves the
generator state unchanged, so the pipeline stages can only run in order. -/
theorem generate_umap_requires_embeddings
    (umapFit : ℕ → List (List ℚ) → List (List ℚ)) (n_components : ℕ)
    (s : GenState) (h : s.embeddings = none) :
    generate_umap_coordinates umapFit n_components s =
      (Except.error "Must generate embeddings first", s) := by
  rw [generate_umap_coordinates, h]

/-- Witness for C6 at the freshly initialized state. -/
theorem generate_umap_requires_embeddings_witness :
    init_state.embeddings = none ∧
    generate_umap_coordinates (fun _ e => e) 2 init_state =
      (Except.error "Must generate embeddings first", init_state) :=
  ⟨rfl, generate_umap_requires_embeddings (fun _ e => e) 2 init_state rfl⟩

/-- C7: after generate_embeddings on a word list and then
generate_umap_coordinates with the default n_components = 2, the state
holds one embedding vector per word and one projected coordinate row per
word, and each coordinate row has exactly 2 columns.  The library contracts
of the sentence-transformer and of UMAP (one output row per input row,
n_components columns) are hypotheses on the abstracted calls. -/
theorem pipeline_shapes (encode : List String → List (List ℚ))
    (umapFit : ℕ → List (List ℚ) → List (List ℚ)) (words : List String)
    (s : GenState)
    (henc : ∀ ws, (encode ws).length = ws.length)
    (hcols : ∀ n e, (umapFit n e).length = e.length ∧
      ∀ r ∈ umapFit n e, r.length = n) :
    ∃ coords s2,
      generate_umap_coordinates umapFit 2
          (generate_embeddings encode s words).1 = (Except.ok coords, s2) ∧
      s2.words = some words ∧
      s2.embeddings = some (encode words) ∧
      (encode words).length = words.length ∧
      s2.umap_coords = some coords ∧
      coords.length = words.length ∧
      ∀ r ∈ coords, r.length = 2 := by
  refine ⟨umapFit 2 (encode words), _, rfl, rfl, rfl, henc words, rfl, ?_,
    (hcols 2 (encode words)).2⟩
  rw [(hcols 2 (encode words)).1, henc words]

/-- Witness for C7 with a stub encoder and a stub UMAP on two words. -/
theorem pipeline_shapes_witness :
    (∀ ws : List String,
      (ws.map (fun _ => ([0] : List ℚ))).length = ws.length) ∧
    (∀ (n : ℕ) (e : List (List ℚ)),
      (e.map (fun _ => (List.replicate n (0 : ℚ)))).length = e.length ∧
      ∀ r ∈ e.map (fun _ => (List.replicate n (0 : ℚ))), r.length = n) ∧
    ∃ coords s2,
      generate_umap_coordinates
          (fun n e => e.map (fun _ => (List.replicate n (0 : ℚ)))) 2
          (generate_embeddings (fun ws => ws.map (fun _ => ([0] : List ℚ)))
            init_state ["cat", "dog"]).1 = (Except.ok coords, s2) ∧
      s2.words = some ["cat", "dog"] ∧
      s2.embeddings = some (["cat", "dog"].map (fun _ => ([0] : List ℚ))) ∧
      (["cat", "dog"].map (fun _ => ([0] : List ℚ))).length =
        (["cat", "dog"] : List String).length ∧
      s2.umap_coords = some coords ∧
      coords.length = (["cat", "dog"] : List String).length ∧
      ∀ r ∈ coords, r.length = 2 := by
  refine ⟨fun ws => by simp, fun n e => ⟨by simp, fun r hr => ?side⟩, ?main⟩
  case side =>
    rw [List.mem_map] at hr
    obtain ⟨x, hx, rfl⟩ := hr
    simp
  case main =>
    exact pipeline_shapes (fun ws => ws.map (fun _ => ([0] : List ℚ)))
      (fun n e => e.map (fun _ => (List.replicate n (0 : ℚ))))
      ["cat", "dog"] init_state (fun ws => by simp)
      (fun n e => ⟨by simp, fun r hr => by
        rw [List.mem_map] at hr
        obtain ⟨x, hx, rfl⟩ := hr
        simp⟩)

/-- Embedding of test_similarity: None when either word is missing from the
stored word list, otherwise the cosine similarity (sklearn, abstracted as
the cosSim parameter) of the two stored embedding rows, looked up at the
first index of each word. -/
def test_similarity (cosSim : List ℚ → List ℚ → ℚ) (words : List String)
    (embeddings : List (List ℚ)) (word1 word2 : String) : Option ℚ :=
  if word1 ∉ words ∨ word2 ∉ words then none
  else some (cosSim (embeddings.getD (words.indexOf word1) [])
    (embeddings.getD (words.indexOf word2) []))

/-- C8: test_similarity returns None exactly when at least one of the two
words is absent from the stored word list; when both are present it returns
the cosine similarity of their stored embedding rows. -/
theorem test_similarity_none_iff (cosSim : List ℚ → List ℚ → ℚ)
    (words : List String) (embeddings : List (List ℚ))
    (word1 word2 : String) :
    (test_similarity cosSim words embeddings word1 word2 = none ↔
      (word1 ∉ words ∨ word2 ∉ words)) ∧
    (word1 ∈ words → word2 ∈ words →
      test_similarity cosSim words embeddings word1 word2 =
        some (cosSim (embeddings.getD (words.indexOf word1) [])
          (embeddings.getD (words.indexOf word2) []))) := by
  classical
  constructor
  · constructor
    · intro h
      by_contra hc
      push_neg at hc
      rw [test_similarity, if_neg (by push_neg; exact hc)] at h
      simp at h
    · intro h
      rw [test_similarity, if_pos h]
  · intro h1 h2
    rw [test_similarity, if_neg (by push_neg; exact ⟨h1, h2⟩)]

/-- Witness for C8 at two stored words with a stub similarity function. -/
theorem test_similarity_witness :
    "cat" ∈ (["cat", "dog"] : List String) ∧
    "dog" ∈ (["cat", "dog"] : List String) ∧
    test_similarity (fun _ _ => (0 : ℚ)) ["cat", "dog"] [[1], [0]]
        "cat" "dog" =
      some ((fun _ _ => (0 : ℚ))
        (([[(1 : ℚ)], [0]] : List (List ℚ)).getD
          ((["cat", "dog"] : List String).indexOf "cat") [])
        (([[(1 : ℚ)], [0]] : List (List ℚ)).getD
          ((["cat", "dog"] : List String).indexOf "dog") [])) :=
  ⟨by decide, by decide,
    (test_similarity_none_iff (fun _ _ => (0 : ℚ)) ["cat", "dog"]
      [[1], [0]] "cat" "dog").2 (by decide) (by decide)⟩

/-- Names of the entries put into the formats dictionary by export_data, in
insertion order; the Blosc2 and LZ4 entries appear only when the optional
libraries were imported successfully (HAS_BLOSC, HAS_LZ4). -/
def export_formats_keys (hasBlosc hasLz4 : Bool) : List String :=
  ["JSON (raw)", "JSON (gzip)", "JSON (brotli)", "NumPy (.npz)",
   "Float32 binary (gzip)", "Float16 binary (gzip)"] ++
  (if hasBlosc then ["Blosc2 (float32)"] else []) ++
  (if hasLz4 then ["LZ4 (float32)"] else []) ++
  ["8-bit quantized JSON (raw)", "8-bit quantized + Brotli",
   "Base64 + Brotli (web)"]

/-- C5 counterexample: even with both optional compression libraries
available, export_data registers eleven formats, not twelve; with neither
it registers nine. -/
theorem export_formats_not_twelve :
    (export_formats_keys true true).length = 11 ∧
    (export_formats_keys false false).length = 9 ∧
    (export_formats_keys true true).length ≠ 12 := by decide

/-- C5 (amended): a single call to export_data benchmarks
9 + (1 if blosc2 imported) + (1 if lz4 imported) serialization formats:
the formats dictionary holds that many distinct keys, at most eleven and
never twelve. -/
theorem export_formats_count (hasBlosc hasLz4 : Bool) :
    (export_formats_keys hasBlosc hasLz4).length =
      9 + (if hasBlosc then 1 else 0) + (if hasLz4 then 1 else 0) ∧
    (export_formats_keys hasBlosc hasLz4).Nodup ∧
    (export_formats_keys hasBlosc hasLz4).length ≤ 11 := by
  cases hasBlosc <;> cases hasLz4 <;> exact ⟨by decide, by decide, by decide⟩

end Semantiq
